import Mathlib

/-!
# Verification of the audio segmentation / feature-construction pipeline

Shallow embedding of the data pre-processing pipeline of
`train_model.ipynb`: per-recording normalization, column-major (Fortran
order) flattening of the stereo channels, overlapping segmentation,
one-hot label construction, the per-file accumulation loop, the
magnitude-spectrum step, and the filename-to-class table.

Sample values are modelled as rationals (exact arithmetic); the
magnitude-spectrum step, which involves complex exponentials, is
modelled over the reals.
-/

namespace TrainModel

/-- `np.max(np.abs(data[:]))`: the peak absolute amplitude of a sample
sequence (`0` for the empty sequence, matching the fold's base case). -/
def peakAbs (l : List ℚ) : ℚ :=
  (l.map (fun x => |x|)).foldr max 0

/-- `data = data/np.max(np.abs(data[:]))`: per-recording normalization of a
2-D sample array (frames × channels), dividing every sample by the
recording's global peak absolute amplitude. -/
def normalizeMat (m : List (List ℚ)) : List (List ℚ) :=
  m.map (fun row => row.map (fun x => x / peakAbs m.flatten))

/-- `np.ndarray.flatten(data, order='F')`: column-major flattening of a
2-D array with `ncols` columns — column 0 in row order, then column 1,
and so on. Out-of-range reads default to `0` (never exercised on arrays
whose rows all have length `ncols`). -/
def flattenF (m : List (List ℚ)) (ncols : ℕ) : List ℚ :=
  ((List.range ncols).map (fun j => m.map (fun row => row.getD j 0))).flatten

/-- `nseg = np.ceil((len(data)-segment_size)/segment_step)`: the segment
count as computed by the source, an integer that can be negative for
short recordings (before `range(int(nseg))` clamps it). -/
def nseg (N L S : ℕ) : ℤ :=
  ⌈(((N : ℚ) - (L : ℚ)) / (S : ℚ) : ℚ)⌉

/-- `X = np.array([data[i*segment_step:i*segment_step+segment_size] for i in
range(int(nseg))])`: the raw-segment matrix. `Int.toNat` models
`range` of a possibly negative count producing no iterations. -/
def segments (data : List ℚ) (L S : ℕ) : List (List ℚ) :=
  (List.range (nseg data.length L S).toNat).map
    (fun i => (data.drop (i * S)).take L)

/-- `y = np.zeros((rows, n_classes)); y[:, nclass] = 1`: one row of the
one-hot label matrix for class index `c` out of `n` classes. -/
def oneHot (n c : ℕ) : List ℕ :=
  (List.range n).map (fun j => if j = c then 1 else 0)

/-- The body of `import_data(fname, nclass, segment_size, segment_step)`,
after the file read: normalize, flatten channel-contiguously, segment,
and replicate the one-hot label once per produced window. The recording
is the decoded 2-D sample array `m` (frames × `ncols` channels). -/
def import_data (m : List (List ℚ)) (ncols nclass nclasses L S : ℕ) :
    List (List ℚ) × List (List ℕ) :=
  let data := flattenF (normalizeMat m) ncols
  let X := segments data L S
  (X, List.replicate X.length (oneHot nclasses nclass))

/-- One iteration of the accumulation loop: `X = np.append(X, Xt, axis=0);
y = np.append(y, yt, axis=0)` for one file (its decoded 2-D sample array
paired with its class index). -/
def accumulateFile (ncols nclasses L S : ℕ)
    (acc : List (List ℚ) × List (List ℕ)) (f : List (List ℚ) × ℕ) :
    List (List ℚ) × List (List ℕ) :=
  (acc.1 ++ (import_data f.1 ncols f.2 nclasses L S).1,
   acc.2 ++ (import_data f.1 ncols f.2 nclasses L S).2)

/-- The per-file accumulation loop: starting from the empty matrices
(`np.empty((0, segment_size))`, `np.empty((0, n_classes))`), append each
file's raw-segment matrix and label matrix along axis 0. -/
def assemble (files : List (List (List ℚ) × ℕ)) (ncols nclasses L S : ℕ) :
    List (List ℚ) × List (List ℕ) :=
  files.foldl (accumulateFile ncols nclasses L S) ([], [])

/-- Entry `k` of `np.fft.rfft` applied to one row: the discrete Fourier
transform `∑ⱼ xⱼ · exp(−2πi·j·k/n)` of a real-valued row of length `n`. -/
noncomputable def rfftEntry (x : List ℝ) (k : ℕ) : ℂ :=
  ∑ j ∈ Finset.range x.length,
    (x.getD j 0 : ℂ) *
      Complex.exp (((-2 * Real.pi * (j : ℝ) * (k : ℝ) / (x.length : ℝ) : ℝ) : ℂ) * Complex.I)

/-- `np.abs(np.fft.rfft(row))`: the magnitude spectrum of one row — the
absolute values of the real-input transform's `n/2 + 1` retained bins. -/
noncomputable def magSpectrum (x : List ℝ) : List ℝ :=
  (List.range (x.length / 2 + 1)).map (fun k => Complex.abs (rfftEntry x k))

/-- One step of Python dict-literal construction: insert key `k` with value
`v`, overwriting in place when `k` is already present (the key keeps its
original position, the value is replaced), appending otherwise. -/
def upsert (d : List (String × ℕ)) (k : String) (v : ℕ) : List (String × ℕ) :=
  if d.any (fun p => p.1 == k) then
    d.map (fun p => if p.1 = k then (k, v) else p)
  else d ++ [(k, v)]

/-- The `flist = { ... }` dict literal: fold the written-down entries into
a keyed map, later entries for the same key overwriting earlier ones. -/
def buildDict (entries : List (String × ℕ)) : List (String × ℕ) :=
  entries.foldl (fun d p => upsert d p.1 p.2) []

/-- The keys of a keyed map, in order: the filenames the accumulation
loop `for fname, nclass in flist.items()` iterates over. -/
def keys (d : List (String × ℕ)) : List String :=
  d.map Prod.fst

/-- The filename/class-label entries exactly as written in the source's
`flist` dict literal (note `messing_nut_M4_1.wav` appears four times). -/
def flistEntries : List (String × ℕ) :=
  [("plastic_spheres_1.wav", 0),
   ("plastic_spheres_2.wav", 0),
   ("plastic_spheres_3.wav", 0),
   ("plastic_spheres_4.wav", 0),
   ("steel_nut_M3_1.wav", 1),
   ("steel_nut_M3_2.wav", 1),
   ("steel_nut_M3_3.wav", 1),
   ("steel_nut_M3_4.wav", 1),
   ("steel_nut_M4_1.wav", 2),
   ("steel_nut_M4_2.wav", 2),
   ("steel_nut_M4_3.wav", 2),
   ("steel_nut_M4_4.wav", 2),
   ("messing_nut_M4_1.wav", 3),
   ("messing_nut_M4_1.wav", 3),
   ("messing_nut_M4_1.wav", 3),
   ("messing_nut_M4_1.wav", 3),
   ("screws_1.wav", 4),
   ("screws_2.wav", 4),
   ("screws_3.wav", 4),
   ("screws_4.wav", 4)]

/-- The `flist` dict as Python evaluates the literal. -/
def flist : List (String × ℕ) :=
  buildDict flistEntries

/-! ## Helper lemmas about the peak absolute amplitude -/

theorem peakAbs_nonneg (l : List ℚ) : 0 ≤ peakAbs l := by
  induction l with
  | nil => simp [peakAbs]
  | cons x xs ih =>
    simp only [peakAbs, List.map_cons, List.foldr_cons]
    exact le_max_of_le_right ih

theorem abs_le_peakAbs (l : List ℚ) (x : ℚ) (hx : x ∈ l) : |x| ≤ peakAbs l := by
  induction l with
  | nil => cases hx
  | cons y ys ih =>
    simp only [peakAbs, List.map_cons, List.foldr_cons]
    rcases List.mem_cons.mp hx with h | h
    · exact h ▸ le_max_left _ _
    · exact le_max_of_le_right (ih h)

theorem peakAbs_eq_zero_iff (l : List ℚ) : peakAbs l = 0 ↔ ∀ x ∈ l, x = 0 := by
  constructor
  · intro h x hx
    have h1 : |x| ≤ 0 := h ▸ abs_le_peakAbs l x hx
    have h2 : (0 : ℚ) ≤ |x| := abs_nonneg x
    exact abs_eq_zero.mp (le_antisymm h1 h2)
  · intro h
    induction l with
    | nil => simp [peakAbs]
    | cons x xs ih =>
      have hx : x = 0 := h x (List.mem_cons_self x xs)
      have hxs : peakAbs xs = 0 := ih (fun y hy => h y (List.mem_cons_of_mem x hy))
      simp only [peakAbs, List.map_cons, List.foldr_cons] at hxs ⊢
      simp [hx, hxs]

theorem peakAbs_pos (l : List ℚ) (h : ∃ x ∈ l, x ≠ 0) : 0 < peakAbs l := by
  rcases h with ⟨x, hx, hx0⟩
  rcases lt_or_eq_of_le (peakAbs_nonneg l) with h | h
  · exact h
  · exact absurd ((peakAbs_eq_zero_iff l).mp h.symm x hx) hx0

theorem peakAbs_map_div (l : List ℚ) (c : ℚ) (hc : 0 < c) :
    peakAbs (l.map (fun x => x / c)) = peakAbs l / c := by
  induction l with
  | nil => simp [peakAbs]
  | cons x xs ih =>
    simp only [peakAbs, List.map_cons, List.foldr_cons] at ih ⊢
    rw [ih, abs_div, abs_of_pos hc, max_div_div_right hc.le]

/-! ## Helper lemmas about the segmenter -/

theorem length_segments (data : List ℚ) (L S : ℕ) :
    (segments data L S).length = (nseg data.length L S).toNat := by
  simp [segments]

theorem window_fits (N L S i : ℕ) (hS : 0 < S) (hi : (i : ℤ) < nseg N L S) :
    i * S + L < N := by
  have hS' : (0 : ℚ) < (S : ℚ) := by exact_mod_cast hS
  have h1 : (i : ℤ) + 1 ≤ nseg N L S := hi
  have h2 : ((i : ℚ) + 1) ≤ ((nseg N L S : ℤ) : ℚ) := by exact_mod_cast h1
  have h3 : ((nseg N L S : ℤ) : ℚ) < ((N : ℚ) - (L : ℚ)) / (S : ℚ) + 1 := by
    simpa [nseg] using Int.ceil_lt_add_one (((N : ℚ) - (L : ℚ)) / (S : ℚ))
  have h4 : (i : ℚ) < ((N : ℚ) - (L : ℚ)) / (S : ℚ) := by linarith
  have h5 : (i : ℚ) * (S : ℚ) < (N : ℚ) - (L : ℚ) := (lt_div_iff₀ hS').mp h4
  have h6 : ((i * S + L : ℕ) : ℚ) < ((N : ℕ) : ℚ) := by push_cast; linarith
  exact_mod_cast h6

theorem nseg_nonpos (N L S : ℕ) (hNL : N ≤ L) : nseg N L S ≤ 0 := by
  have h : ((N : ℚ) - (L : ℚ)) / (S : ℚ) ≤ 0 := by
    apply div_nonpos_of_nonpos_of_nonneg
    · have : ((N : ℕ) : ℚ) ≤ ((L : ℕ) : ℚ) := by exact_mod_cast hNL
      linarith
    · positivity
  exact Int.ceil_le.mpr (by exact_mod_cast h)

/-! ## Claim theorems: segmentation -/

/-- C1 (counterexample): as stated, the claim fails — for a recording of
flattened length 100 with `L = 512`, `S = 128`, the code produces 0
windows while `ceil((N − L)/S) = −3`. -/
theorem segment_count_ceil_counterexample :
    ¬ (((segments (List.replicate 100 (1 : ℚ)) 512 128).length : ℤ) =
        nseg 100 512 128) := by
  have h1 : nseg 100 512 128 = -3 := by
    rw [nseg, Int.ceil_eq_iff]
    norm_num
  have h2 : (segments (List.replicate 100 (1 : ℚ)) 512 128).length = 0 := by
    rw [length_segments]
    simp [h1]
  rw [h2, h1]
  decide

/-- C1 (amended): for a positive stride `S`, the segmenter produces exactly
`max 0 (ceil((N − L)/S))` windows — equal to `ceil((N − L)/S)` whenever that
quantity is non-negative — and the `i`-th window is the slice of the
flattened data starting at offset `i·S` (offsets `0, S, 2S, …`). -/
theorem segment_count_clamped_ceil (data : List ℚ) (L S : ℕ) (_hS : 0 < S) :
    ((segments data L S).length : ℤ) = max 0 (nseg data.length L S) ∧
      ∀ i, (h : i < (segments data L S).length) →
        (segments data L S)[i] = (data.drop (i * S)).take L := by
  constructor
  · rw [length_segments, Int.toNat_eq_max, max_comm]
  · intro i h
    simp [segments]

/-- C1 witness: the spec's own example — flattened length 2048, `L = 512`,
`S = 128` — instantiating the amended count statement. -/
theorem segment_count_clamped_ceil_witness :
    0 < 128 ∧
      ((segments (List.replicate 2048 (0 : ℚ)) 512 128).length : ℤ) =
        max 0 (nseg 2048 512 128) := by
  refine ⟨by decide, ?_⟩
  have h := (segment_count_clamped_ceil (List.replicate 2048 (0 : ℚ)) 512 128 (by decide)).1
  simpa only [List.length_replicate] using h

/-- C2: for a positive stride, every row of the raw-segment matrix has
exactly `L` columns — the final window included, since the ceil-based
count keeps every window start at least `L + 1` samples before the end. -/
theorem segment_rows_full_length (data : List ℚ) (L S : ℕ) (hS : 0 < S) :
    ∀ row ∈ segments data L S, row.length = L := by
  intro row hrow
  simp only [segments, List.mem_map, List.mem_range] at hrow
  rcases hrow with ⟨i, hi, rfl⟩
  have hi' : (i : ℤ) < nseg data.length L S := Int.lt_toNat.mp hi
  have hfit := window_fits data.length L S i hS hi'
  simp only [List.length_take, List.length_drop]
  omega

/-- C2 witness: the first window of a 6-sample recording with `L = 4`,
`S = 2` has length exactly 4. -/
theorem segment_rows_full_length_witness :
    0 < 2 ∧ (((List.replicate 6 (1 : ℚ)).drop (0 * 2)).take 4).length = 4 := by
  have h1 : nseg 6 4 2 = 1 := by
    rw [nseg, Int.ceil_eq_iff]
    norm_num
  have hmem : ((List.replicate 6 (1 : ℚ)).drop (0 * 2)).take 4 ∈
      segments (List.replicate 6 (1 : ℚ)) 4 2 := by
    simp only [segments, List.mem_map, List.mem_range, List.length_replicate, h1]
    exact ⟨0, by decide, rfl⟩
  exact ⟨by decide, segment_rows_full_length _ 4 2 (by decide) _ hmem⟩

/-- C9: a recording whose flattened length is at most `L` contributes no
rows — the segmenter (totally defined, no error path) returns an empty
raw-segment matrix and an empty label matrix. -/
theorem short_recording_yields_no_rows (m : List (List ℚ))
    (ncols nclass nclasses L S : ℕ) (_hS : 0 < S)
    (hN : (flattenF (normalizeMat m) ncols).length ≤ L) :
    (import_data m ncols nclass nclasses L S).1.length = 0 ∧
      (import_data m ncols nclass nclasses L S).2.length = 0 := by
  have h : (segments (flattenF (normalizeMat m) ncols) L S).length = 0 := by
    rw [length_segments]
    have := nseg_nonpos (flattenF (normalizeMat m) ncols).length L S hN
    omega
  exact ⟨by simpa [import_data] using h, by simp [import_data, h]⟩

/-- C9 witness: a one-frame mono recording (flattened length 1 ≤ 512)
yields zero feature rows and zero label rows at the source's parameters. -/
theorem short_recording_yields_no_rows_witness :
    0 < 128 ∧ (flattenF (normalizeMat [[(1 : ℚ)]]) 1).length ≤ 512 ∧
      (import_data [[(1 : ℚ)]] 1 0 5 512 128).1.length = 0 ∧
      (import_data [[(1 : ℚ)]] 1 0 5 512 128).2.length = 0 := by
  have hN : (flattenF (normalizeMat [[(1 : ℚ)]]) 1).length ≤ 512 := by
    decide
  exact ⟨by decide, hN,
    short_recording_yields_no_rows [[(1 : ℚ)]] 1 0 5 512 128 (by decide) hN⟩

/-- C3: for a non-silent recording, the peak absolute amplitude of the
normalized samples equals exactly 1 (exact rational arithmetic stands in
for the floating-point tolerance). -/
theorem normalized_peak_eq_one (m : List (List ℚ))
    (h : ∃ x ∈ m.flatten, x ≠ 0) :
    peakAbs ((normalizeMat m).flatten) = 1 := by
  have hp : 0 < peakAbs m.flatten := peakAbs_pos _ h
  have hflat : (normalizeMat m).flatten =
      m.flatten.map (fun x => x / peakAbs m.flatten) := by
    simp only [normalizeMat]
    exact (List.map_flatten _ m).symm
  rw [hflat, peakAbs_map_div _ _ hp, div_self (ne_of_gt hp)]

/-- C3 witness: the recording `[[1, -2]]` is not silent and normalizes to
peak absolute amplitude 1. -/
theorem normalized_peak_eq_one_witness :
    (∃ x ∈ ([[(1 : ℚ), -2]] : List (List ℚ)).flatten, x ≠ 0) ∧
      peakAbs ((normalizeMat [[(1 : ℚ), -2]]).flatten) = 1 := by
  have hx : ∃ x ∈ ([[(1 : ℚ), -2]] : List (List ℚ)).flatten, x ≠ 0 :=
    ⟨1, by simp, one_ne_zero⟩
  exact ⟨hx, normalized_peak_eq_one _ hx⟩

/-- C10: the normalization's divisor is the recording's peak absolute
amplitude, applied unguarded (second conjunct, definitional), and that
divisor is zero exactly when the recording is silent — so non-silence is
precisely the precondition under which the division-by-zero branch is
unreachable. -/
theorem silent_iff_zero_divisor (m : List (List ℚ)) :
    (peakAbs m.flatten = 0 ↔ ∀ x ∈ m.flatten, x = 0) ∧
      normalizeMat m =
        m.map (fun row => row.map (fun x => x / peakAbs m.flatten)) :=
  ⟨peakAbs_eq_zero_iff m.flatten, rfl⟩

/-! ## Helper lemmas about one-hot label rows -/

theorem length_oneHot (n c : ℕ) : (oneHot n c).length = n := by
  simp [oneHot]

theorem oneHot_getD (n c j : ℕ) (hj : j < n) :
    (oneHot n c).getD j 0 = if j = c then 1 else 0 := by
  simp [oneHot, List.getD_eq_getElem?_getD, List.getElem?_map,
    List.getElem?_range hj]

theorem oneHot_sum_of_ge (n c : ℕ) (h : n ≤ c) : (oneHot n c).sum = 0 := by
  induction n with
  | zero => simp [oneHot]
  | succ k ih =>
    rw [oneHot, List.range_succ, List.map_append, List.sum_append]
    have h1 : k ≠ c := by omega
    have h2 := ih (by omega)
    rw [oneHot] at h2
    simp [h1, h2]

theorem oneHot_sum (n c : ℕ) (h : c < n) : (oneHot n c).sum = 1 := by
  induction n with
  | zero => omega
  | succ k ih =>
    rw [oneHot, List.range_succ, List.map_append, List.sum_append]
    by_cases hc : c < k
    · have h2 := ih hc
      rw [oneHot] at h2
      have h1 : k ≠ c := by omega
      simp [h1, h2]
    · have hck : c = k := by omega
      subst hck
      have h2 := oneHot_sum_of_ge c c (le_refl c)
      rw [oneHot] at h2
      simp [h2]

/-- C4: when the class index is in range, every label row produced for a
recording is a valid one-hot vector: length `n_classes`, entry `nclass`
equal to 1, every other entry 0, row sum 1. -/
theorem label_rows_one_hot (m : List (List ℚ)) (ncols nclass nclasses L S : ℕ)
    (hc : nclass < nclasses) :
    ∀ row ∈ (import_data m ncols nclass nclasses L S).2,
      row.length = nclasses ∧ row.getD nclass 0 = 1 ∧
        (∀ j, j < nclasses → j ≠ nclass → row.getD j 0 = 0) ∧
        row.sum = 1 := by
  intro row hrow
  have hrow' : row = oneHot nclasses nclass := by
    simp only [import_data] at hrow
    exact List.eq_of_mem_replicate hrow
  subst hrow'
  refine ⟨length_oneHot _ _, ?_, ?_, oneHot_sum _ _ hc⟩
  · rw [oneHot_getD _ _ _ hc]
    simp
  · intro j hj hne
    rw [oneHot_getD _ _ _ hj]
    simp [hne]

/-- C4 witness: an 8-sample mono recording with `L = 4`, `S = 2` and class
index 4 of 5 produces label rows summing to 1. -/
theorem label_rows_one_hot_witness :
    4 < 5 ∧ (oneHot 5 4).sum = 1 := by
  have h2 : nseg 8 4 2 = 2 := by
    rw [nseg, Int.ceil_eq_iff]
    norm_num
  have hd : (flattenF (normalizeMat (List.replicate 8 [(1 : ℚ)])) 1).length = 8 := by
    decide
  have hx : (segments (flattenF (normalizeMat (List.replicate 8 [(1 : ℚ)])) 1) 4 2).length = 2 := by
    rw [length_segments, hd, h2]
    rfl
  have hmem : oneHot 5 4 ∈ (import_data (List.replicate 8 [(1 : ℚ)]) 1 4 5 4 2).2 := by
    simp only [import_data]
    rw [hx]
    exact List.mem_replicate.mpr ⟨by decide, rfl⟩
  exact ⟨by decide, (label_rows_one_hot _ 1 4 5 4 2 (by decide) _ hmem).2.2.2⟩

/-! ## The accumulation-loop invariant -/

theorem import_data_row_counts (m : List (List ℚ)) (ncols nclass nclasses L S : ℕ) :
    (import_data m ncols nclass nclasses L S).1.length =
      (import_data m ncols nclass nclasses L S).2.length := by
  simp [import_data]

theorem import_data_label_cols (m : List (List ℚ)) (ncols nclass nclasses L S : ℕ) :
    ∀ row ∈ (import_data m ncols nclass nclasses L S).2, row.length = nclasses := by
  intro row hrow
  simp only [import_data] at hrow
  rw [List.eq_of_mem_replicate hrow]
  exact length_oneHot _ _

theorem accumulate_invariant (files : List (List (List ℚ) × ℕ))
    (ncols nclasses L S : ℕ) (acc : List (List ℚ) × List (List ℕ))
    (h1 : acc.1.length = acc.2.length)
    (h2 : ∀ row ∈ acc.2, row.length = nclasses) :
    (files.foldl (accumulateFile ncols nclasses L S) acc).1.length =
        (files.foldl (accumulateFile ncols nclasses L S) acc).2.length ∧
      ∀ row ∈ (files.foldl (accumulateFile ncols nclasses L S) acc).2,
        row.length = nclasses := by
  induction files generalizing acc with
  | nil => exact ⟨h1, h2⟩
  | cons f fs ih =>
    apply ih
    · simp only [accumulateFile, List.length_append]
      rw [h1, import_data_row_counts]
    · intro row hrow
      rcases List.mem_append.mp hrow with h | h
      · exact h2 row h
      · exact import_data_label_cols _ _ _ _ _ _ row h

/-- C5: after each step of the per-file accumulation loop (every prefix
of the file list) and after final assembly, the feature matrix and the
label matrix have equal row counts, and every label row has `n_classes`
entries. -/
theorem assemble_row_counts_align (files : List (List (List ℚ) × ℕ))
    (ncols nclasses L S k : ℕ) :
    ((assemble (files.take k) ncols nclasses L S).1.length =
        (assemble (files.take k) ncols nclasses L S).2.length ∧
      ∀ row ∈ (assemble (files.take k) ncols nclasses L S).2,
        row.length = nclasses) ∧
      (assemble files ncols nclasses L S).1.length =
          (assemble files ncols nclasses L S).2.length ∧
        ∀ row ∈ (assemble files ncols nclasses L S).2, row.length = nclasses := by
  constructor
  · exact accumulate_invariant (files.take k) ncols nclasses L S ([], [])
      rfl (by intro row hrow; cases hrow)
  · exact accumulate_invariant files ncols nclasses L S ([], [])
      rfl (by intro row hrow; cases hrow)

/-- C5 witness: assembling one concrete 8-sample file leaves the two
matrices with equal row counts. -/
theorem assemble_row_counts_align_witness :
    (assemble [(List.replicate 8 [(1 : ℚ)], 4)] 1 5 4 2).1.length =
      (assemble [(List.replicate 8 [(1 : ℚ)], 4)] 1 5 4 2).2.length :=
  (assemble_row_counts_align [(List.replicate 8 [(1 : ℚ)], 4)] 1 5 4 2 1).2.1

/-- C6: flattening a two-channel recording in Fortran (column-major) order
yields channel 0's samples in order followed by channel 1's samples in
order — channel-contiguous, not sample-interleaved — with total length
twice the per-channel frame count. -/
theorem flattenF_channel_contiguous (frames : List (ℚ × ℚ)) :
    flattenF (frames.map (fun p => [p.1, p.2])) 2 =
        frames.map Prod.fst ++ frames.map Prod.snd ∧
      (flattenF (frames.map (fun p => [p.1, p.2])) 2).length =
        2 * frames.length := by
  have h : flattenF (frames.map (fun p => [p.1, p.2])) 2 =
      frames.map Prod.fst ++ frames.map Prod.snd := by
    rw [flattenF, show List.range 2 = [0, 1] from rfl]
    simp only [List.map_map, List.map_cons, List.map_nil, List.flatten_cons,
      List.flatten_nil, List.append_nil]
    rfl
  refine ⟨h, ?_⟩
  rw [h]
  simp only [List.length_append, List.length_map]
  omega

/-- C7: applying the magnitude-spectrum step to every row of an assembled
raw-segment matrix whose rows all have length `L` yields feature vectors
of length `L/2 + 1`, every entry of which is non-negative (an absolute
value of a transform bin). -/
theorem magnitude_spectrum_length_nonneg (L : ℕ) (X : List (List ℝ))
    (hX : ∀ r ∈ X, r.length = L) :
    ∀ f ∈ X.map magSpectrum, f.length = L / 2 + 1 ∧ ∀ v ∈ f, 0 ≤ v := by
  intro f hf
  rcases List.mem_map.mp hf with ⟨r, hr, rfl⟩
  constructor
  · simp [magSpectrum, hX r hr]
  · intro v hv
    simp only [magSpectrum, List.mem_map] at hv
    rcases hv with ⟨k, _, rfl⟩
    exact Complex.abs.nonneg _

/-- C7 witness: a single all-zero row of length 512 yields a feature
vector of length 257 = 512/2 + 1. -/
theorem magnitude_spectrum_length_nonneg_witness :
    (List.replicate 512 (0 : ℝ)).length = 512 ∧
      (magSpectrum (List.replicate 512 (0 : ℝ))).length = 257 := by
  have hX : ∀ r ∈ [List.replicate 512 (0 : ℝ)], r.length = 512 := by
    intro r hr
    rw [List.mem_singleton] at hr
    rw [hr, List.length_replicate]
  have h := magnitude_spectrum_length_nonneg 512 [List.replicate 512 (0 : ℝ)]
    hX (magSpectrum (List.replicate 512 (0 : ℝ)))
    (List.mem_map_of_mem magSpectrum (List.mem_singleton.mpr rfl))
  exact ⟨List.length_replicate 512 0, h.1⟩

/-! ## Helper lemmas about the filename-to-class table -/

theorem mem_keys_iff_any (d : List (String × ℕ)) (k : String) :
    (d.any (fun p => p.1 == k)) = true ↔ k ∈ keys d := by
  simp [keys, List.any_eq_true]

theorem keys_upsert (d : List (String × ℕ)) (k : String) (v : ℕ) :
    keys (upsert d k v) = if k ∈ keys d then keys d else keys d ++ [k] := by
  by_cases h : k ∈ keys d
  · rw [upsert, if_pos ((mem_keys_iff_any d k).mpr h), if_pos h]
    simp only [keys, List.map_map]
    apply List.map_congr_left
    intro p _
    by_cases hpk : p.1 = k
    · simp [hpk]
    · simp [hpk]
  · rw [upsert, if_neg (by rw [mem_keys_iff_any]; exact h), if_neg h]
    simp [keys]

theorem keys_nodup_upsert (d : List (String × ℕ)) (k : String) (v : ℕ)
    (h : (keys d).Nodup) : (keys (upsert d k v)).Nodup := by
  rw [keys_upsert]
  by_cases hk : k ∈ keys d
  · simpa [hk] using h
  · simp [hk, List.nodup_append, h]

theorem foldl_upsert_keys_nodup (entries : List (String × ℕ))
    (d : List (String × ℕ)) (h : (keys d).Nodup) :
    (keys (entries.foldl (fun d p => upsert d p.1 p.2) d)).Nodup := by
  induction entries generalizing d with
  | nil => simpa using h
  | cons e es ih => exact ih _ (keys_nodup_upsert _ _ _ h)

theorem lookup_map_upsert_self (d : List (String × ℕ)) (k : String) (v : ℕ)
    (h : k ∈ keys d) :
    (d.map (fun p => if p.1 = k then (k, v) else p)).lookup k = some v := by
  induction d with
  | nil => simp [keys] at h
  | cons p ps ih =>
    obtain ⟨pk, pv⟩ := p
    by_cases hpk : pk = k
    · simp only [List.map_cons, if_pos hpk]
      simp [List.lookup_cons]
    · have h1 : k ∈ keys ps := by
        simp only [keys, List.map_cons, List.mem_cons] at h
        rcases h with h | h
        · exact absurd h.symm hpk
        · simpa [keys] using h
      have h2 : (k == pk) = false := by
        simp only [beq_eq_false_iff_ne, ne_eq]
        exact fun hk => hpk hk.symm
      simp only [List.map_cons, if_neg hpk]
      simp [List.lookup_cons, h2, ih h1]

theorem lookup_append_left_none (d l : List (String × ℕ)) (k : String)
    (h : k ∉ keys d) : (d ++ l).lookup k = l.lookup k := by
  induction d with
  | nil => simp
  | cons p ps ih =>
    obtain ⟨pk, pv⟩ := p
    have h1 : (k == pk) = false := by
      simp only [beq_eq_false_iff_ne, ne_eq]
      intro hk
      exact h (by simp [keys, hk])
    have h2 : k ∉ keys ps := by
      intro hk
      apply h
      simp only [keys, List.map_cons, List.mem_cons]
      exact Or.inr (by simpa [keys] using hk)
    simp [List.lookup_cons, h1, ih h2]

theorem lookup_upsert_self (d : List (String × ℕ)) (k : String) (v : ℕ) :
    (upsert d k v).lookup k = some v := by
  by_cases h : k ∈ keys d
  · rw [upsert, if_pos ((mem_keys_iff_any d k).mpr h)]
    exact lookup_map_upsert_self d k v h
  · rw [upsert, if_neg (by rw [mem_keys_iff_any]; exact h),
      lookup_append_left_none d _ k h]
    simp [List.lookup]

/-- C8: dict-literal semantics of `flist`. In general the built table's
keys are distinct (so the assembly loop visits each distinct filename at
most once) and the last written entry for a key determines its value
(later entries silently overwrite earlier ones); concretely, the 20
written entries of `flist` collapse to 17 retained ones, with the
quadruplicated `messing_nut_M4_1.wav` kept once, mapped to class 3. -/
theorem flist_dedup_last_wins :
    (∀ entries : List (String × ℕ), (keys (buildDict entries)).Nodup) ∧
      (∀ (entries : List (String × ℕ)) (k : String) (v : ℕ),
        (buildDict (entries ++ [(k, v)])).lookup k = some v) ∧
      flistEntries.length = 20 ∧ flist.length = 17 ∧
      flist.lookup "messing_nut_M4_1.wav" = some 3 := by
  refine ⟨?_, ?_, ?_, ?_, ?_⟩
  · intro entries
    exact foldl_upsert_keys_nodup entries [] (by simp [keys])
  · intro entries k v
    rw [buildDict, List.foldl_append]
    exact lookup_upsert_self _ k v
  · decide
  · decide
  · decide

end TrainModel
